import Mathlib

/-!
Verification of the `Package` value object from `bropkg/package.py`.

The Python class stores a `git_url`, a derived `name` (last slash-split
segment of `git_url`), and two optional fields `source` and `module_dir`.
It renders a canonical identity string (`__str__`), orders packages by that
string (`__lt__`), and matches slash-delimited paths against the identity
(`matches_path`).  Python's negative list indexing in `matches_path` can
raise `IndexError`; we model that outcome as `none` in an `Option Bool`.
-/

namespace Bropkg

/-- Python truthiness of an optional string field, as used by
`if self.source:` and `if self.module_dir:`: `None` and the empty string
are falsy, every other string is truthy. -/
def truthy : Option String → Bool
  | none => false
  | some s => s != ""

/-- Python `str.split(sep)` for a single-character separator, acting on the
character list: splits at every occurrence of `c`, keeping empty pieces,
and always returns at least one piece (`"".split(sep) == [""]`). -/
def splitChar (c : Char) : List Char → List (List Char)
  | [] => [[]]
  | a :: as =>
    match splitChar c as with
    | [] => [[]]
    | h :: t => if a = c then [] :: h :: t else (a :: h) :: t

/-- Python `path.split('/')` on a Lean `String`. -/
def splitSlash (s : String) : List String :=
  (splitChar '/' s.data).map String.mk

/-- Python `'/'.join(parts)`, used to express the spec's "join of segments
with a slash". -/
def joinSlash : List String → String
  | [] => ""
  | [s] => s
  | s :: r :: rs => s ++ "/" ++ joinSlash (r :: rs)

/-- The backwards comparison loop of `Package.matches_path`, acting on the
reversed segment lists.  The Python loop walks the path segments from the
last to the first, comparing each against the package-identity segment at
the same distance from the end via a negative index `ri = i - len(path_parts)`;
when the identity has fewer segments than the path that negative index goes
out of range and Python raises `IndexError`, modelled here as `none`. -/
def matchLoop : List String → List String → Option Bool
  | [], _ => some true
  | _ :: _, [] => none
  | a :: as, b :: bs => if a != b then some false else matchLoop as bs

/-- The `Package` value object: `git_url` and the derived `name`, plus the
optional `source` and `module_dir` fields. -/
structure Package where
  git_url : String
  name : String
  source : Option String
  module_dir : Option String
  deriving DecidableEq, Repr

namespace Package

/-- Embeds `Package.__init__`: stores `git_url`, derives
`name = git_url.split('/')[-1]` (the split list is never empty, so the
Python negative index is its last element), and stores `source` and
`module_dir` as given. -/
def init (git_url : String) (source : Option String) (module_dir : Option String) :
    Package :=
  { git_url := git_url
    name := (splitSlash git_url).getLastD ""
    source := source
    module_dir := module_dir }

/-- Embeds `Package.__str__`, the canonical identity string the spec calls
`identity()`: `"{source}/{module_dir}/{name}"` when `source` and
`module_dir` are both truthy, `"{source}/{name}"` when only `source` is
truthy, and `git_url` otherwise. -/
def identity (p : Package) : String :=
  if truthy p.source then
    if truthy p.module_dir then
      p.source.getD "" ++ "/" ++ p.module_dir.getD "" ++ "/" ++ p.name
    else
      p.source.getD "" ++ "/" ++ p.name
  else
    p.git_url

/-- Embeds `Package.__lt__`: `str(self) < str(other)`. -/
def lt (a b : Package) : Bool :=
  decide (a.identity < b.identity)

/-- Embeds `Package.matches_path`.  The result is `some b` when the Python
code returns the boolean `b`, and `none` when the Python code raises
`IndexError` from the out-of-range negative index. -/
def matches_path (p : Package) (path : String) : Option Bool :=
  let path_parts := splitSlash path
  if truthy p.source then
    let pkg_path_parts := splitSlash p.identity
    matchLoop path_parts.reverse pkg_path_parts.reverse
  else
    if path_parts.length == 1 && path_parts.getLastD "" == p.name then
      some true
    else
      some (path == p.git_url)

end Package

/-! ### Structural lemmas about splitting, joining and the matching loop -/

lemma splitChar_ne_nil (c : Char) (l : List Char) : splitChar c l ≠ [] := by
  induction l with
  | nil => simp [splitChar]
  | cons a as ih =>
    cases h : splitChar c as with
    | nil => exact absurd h ih
    | cons hd tl =>
      simp only [splitChar, h]
      split <;> simp

lemma splitChar_of_not_mem (c : Char) (l : List Char) (h : c ∉ l) :
    splitChar c l = [l] := by
  induction l with
  | nil => rfl
  | cons a as ih =>
    have ha : a ≠ c := fun hac => h (hac ▸ List.mem_cons_self a as)
    have has : c ∉ as := fun hc => h (List.mem_cons_of_mem a hc)
    simp only [splitChar, ih has]
    simp [ha]

lemma splitChar_append (c : Char) (x y : List Char) :
    splitChar c (x ++ c :: y) = splitChar c x ++ splitChar c y := by
  induction x with
  | nil =>
    cases h : splitChar c y with
    | nil => exact absurd h (splitChar_ne_nil c y)
    | cons hd tl => simp [splitChar, h]
  | cons a as ih =>
    cases h : splitChar c as with
    | nil => exact absurd h (splitChar_ne_nil c as)
    | cons hd tl =>
      rw [List.cons_append]
      rw [show splitChar c (a :: (as ++ c :: y)) = match splitChar c (as ++ c :: y) with
        | [] => [[]]
        | h :: t => if a = c then [] :: h :: t else (a :: h) :: t from rfl]
      rw [ih, h]
      rw [show splitChar c (a :: as) = match splitChar c as with
        | [] => [[]]
        | h :: t => if a = c then [] :: h :: t else (a :: h) :: t from rfl]
      rw [h]
      by_cases hac : a = c <;> simp [hac]

lemma not_mem_of_mem_splitChar (c : Char) (l p : List Char)
    (hp : p ∈ splitChar c l) : c ∉ p := by
  induction l generalizing p with
  | nil =>
    simp only [splitChar, List.mem_singleton] at hp
    rw [hp]; simp
  | cons a as ih =>
    cases h : splitChar c as with
    | nil => exact absurd h (splitChar_ne_nil c as)
    | cons hd tl =>
      simp only [splitChar, h] at hp
      by_cases hac : a = c
      · rw [if_pos hac] at hp
        rcases List.mem_cons.mp hp with hp | hp
        · rw [hp]; simp
        · exact ih p (by rw [h]; exact hp)
      · rw [if_neg hac] at hp
        rcases List.mem_cons.mp hp with hp | hp
        · rw [hp]
          intro hmem
          rcases List.mem_cons.mp hmem with hmem | hmem
          · exact hac hmem.symm
          · exact ih hd (by rw [h]; exact List.mem_cons_self hd tl) hmem
        · exact ih p (by rw [h]; exact List.mem_cons_of_mem hd hp)

lemma splitChar_eq_singleton (c : Char) (l x : List Char)
    (h : splitChar c l = [x]) : x = l := by
  induction l generalizing x with
  | nil =>
    simp only [splitChar] at h
    injection h with h1 h2
    exact h1.symm
  | cons a as ih =>
    cases hs : splitChar c as with
    | nil => exact absurd hs (splitChar_ne_nil c as)
    | cons hd tl =>
      simp only [splitChar, hs] at h
      by_cases hac : a = c
      · simp [hac] at h
      · simp only [if_neg hac] at h
        injection h with h1 h2
        rw [h2] at hs
        rw [← h1, ih hd hs]

lemma splitChar_getLast (c : Char) (l : List Char) (hne : l ≠ [])
    (hc : l.getLast? ≠ some c) :
    ∃ p, (splitChar c l).getLast? = some p ∧ p ≠ [] := by
  induction l with
  | nil => exact absurd rfl hne
  | cons a as ih =>
    cases as with
    | nil =>
      have hac : a ≠ c := by simpa using hc
      refine ⟨[a], ?_, by simp⟩
      simp [splitChar, hac]
    | cons b bs =>
      have h2 : (b :: bs).getLast? ≠ some c := by
        rwa [List.getLast?_cons_cons] at hc
      obtain ⟨p, hp, hpne⟩ := ih (by simp) h2
      cases hsp : splitChar c (b :: bs) with
      | nil => exact absurd hsp (splitChar_ne_nil c (b :: bs))
      | cons hd tl =>
        rw [hsp] at hp
        have hunf : splitChar c (a :: b :: bs)
            = if a = c then [] :: hd :: tl else (a :: hd) :: tl := by
          rw [show splitChar c (a :: b :: bs) = match splitChar c (b :: bs) with
            | [] => [[]]
            | h :: t => if a = c then [] :: h :: t else (a :: h) :: t from rfl, hsp]
        by_cases hac : a = c
        · refine ⟨p, ?_, hpne⟩
          rw [hunf, if_pos hac, List.getLast?_cons_cons]
          exact hp
        · cases tl with
          | nil =>
            refine ⟨a :: hd, ?_, by simp⟩
            rw [hunf, if_neg hac]
            simp at hp
            simp [hp]
          | cons t ts =>
            refine ⟨p, ?_, hpne⟩
            rw [hunf, if_neg hac, List.getLast?_cons_cons]
            rwa [List.getLast?_cons_cons] at hp

lemma mk_data (s : String) : String.mk s.data = s := rfl

lemma splitSlash_ne_nil (s : String) : splitSlash s ≠ [] := fun h =>
  splitChar_ne_nil '/' s.data (List.map_eq_nil_iff.mp h)

lemma splitSlash_no_slash (s : String) (h : '/' ∉ s.data) : splitSlash s = [s] := by
  unfold splitSlash
  rw [splitChar_of_not_mem '/' s.data h, List.map_cons, List.map_nil, mk_data]

lemma data_slash_append (a b : String) :
    (a ++ "/" ++ b).data = a.data ++ '/' :: b.data := by
  simp [String.data_append]

lemma splitSlash_append (a b : String) :
    splitSlash (a ++ "/" ++ b) = splitSlash a ++ splitSlash b := by
  unfold splitSlash
  rw [data_slash_append, splitChar_append, List.map_append]

lemma mem_splitSlash (s x : String) (hx : x ∈ splitSlash s) : '/' ∉ x.data := by
  unfold splitSlash at hx
  obtain ⟨p, hp, hpx⟩ := List.mem_map.mp hx
  rw [← hpx]
  exact not_mem_of_mem_splitChar '/' s.data p hp

lemma splitSlash_eq_singleton (s x : String) (h : splitSlash s = [x]) : x = s := by
  unfold splitSlash at h
  cases hl : splitChar '/' s.data with
  | nil => exact absurd hl (splitChar_ne_nil '/' s.data)
  | cons hd tl =>
    rw [hl, List.map_cons] at h
    injection h with h1 h2
    rw [List.map_eq_nil_iff.mp h2] at hl
    rw [← h1, splitChar_eq_singleton '/' s.data hd hl]

lemma splitSlash_joinSlash (l : List String) (hne : l ≠ [])
    (hl : ∀ x ∈ l, '/' ∉ x.data) : splitSlash (joinSlash l) = l := by
  induction l with
  | nil => exact absurd rfl hne
  | cons a as ih =>
    cases as with
    | nil =>
      rw [show joinSlash [a] = a from rfl]
      rw [splitSlash_no_slash a (hl a (List.mem_cons_self a []))]
    | cons b bs =>
      rw [show joinSlash (a :: b :: bs) = a ++ "/" ++ joinSlash (b :: bs) from rfl]
      rw [splitSlash_append,
        splitSlash_no_slash a (hl a (List.mem_cons_self a (b :: bs))),
        ih (by simp) (fun x hx => hl x (List.mem_cons_of_mem a hx))]
      rfl

lemma matchLoop_self_append (l t : List String) : matchLoop l (l ++ t) = some true := by
  induction l with
  | nil => rfl
  | cons a as ih =>
    rw [List.cons_append]
    simp only [matchLoop, bne_self_eq_false]
    exact ih

lemma matchLoop_cons_ne (a b : String) (as bs : List String) (h : a ≠ b) :
    matchLoop (a :: as) (b :: bs) = some false := by
  simp only [matchLoop, if_pos (bne_iff_ne.mpr h)]

lemma matchLoop_drop_reverse (L : List String) (j : Nat) :
    matchLoop (L.drop j).reverse L.reverse = some true := by
  have h := List.take_append_drop j L
  calc matchLoop (L.drop j).reverse L.reverse
      = matchLoop (L.drop j).reverse ((L.take j ++ L.drop j).reverse) := by rw [h]
    _ = matchLoop (L.drop j).reverse ((L.drop j).reverse ++ (L.take j).reverse) := by
        rw [List.reverse_append]
    _ = some true := matchLoop_self_append _ _

/-! ### Helper lemmas about the Package operations -/

lemma init_name (g : String) (s m : Option String) :
    (Package.init g s m).name = (splitSlash g).getLastD "" := rfl

lemma init_name_no_slash (g : String) (s m : Option String) :
    '/' ∉ (Package.init g s m).name.data := by
  rw [init_name]
  cases hl : splitSlash g with
  | nil => exact absurd hl (splitSlash_ne_nil g)
  | cons x xs =>
    rw [List.getLastD_cons]
    exact mem_splitSlash g _ (by rw [hl]; exact List.getLastD_mem_cons xs x)

lemma identity_falsy (p : Package) (hs : truthy p.source = false) :
    p.identity = p.git_url := by
  simp [Package.identity, hs]

lemma identity_truthy_concat (p : Package) (hs : truthy p.source = true) :
    ∃ x : String, p.identity = x ++ "/" ++ p.name := by
  by_cases hm : truthy p.module_dir = true
  · exact ⟨p.source.getD "" ++ "/" ++ p.module_dir.getD "", by
      simp [Package.identity, hs, hm]⟩
  · exact ⟨p.source.getD "", by
      simp [Package.identity, hs, Bool.not_eq_true _ ▸ hm]⟩

lemma splitSlash_identity_concat (p : Package) (hs : truthy p.source = true)
    (hn : '/' ∉ p.name.data) :
    ∃ pre, splitSlash p.identity = pre ++ [p.name] := by
  obtain ⟨x, hx⟩ := identity_truthy_concat p hs
  exact ⟨splitSlash x, by rw [hx, splitSlash_append, splitSlash_no_slash p.name hn]⟩

lemma matches_path_truthy (p : Package) (hs : truthy p.source = true) (path : String) :
    p.matches_path path
      = matchLoop (splitSlash path).reverse (splitSlash p.identity).reverse := by
  simp [Package.matches_path, hs]

lemma matches_path_falsy (p : Package) (hs : truthy p.source = false)
    (hn : '/' ∉ p.name.data) (path : String) :
    p.matches_path path = some (path == p.name || path == p.git_url) := by
  unfold Package.matches_path
  rw [hs]
  simp only [Bool.false_eq_true, if_false]
  by_cases hpn : path = p.name
  · rw [hpn]
    rw [splitSlash_no_slash p.name hn]
    simp
  · have hcond : ((splitSlash path).length == 1
        && (splitSlash path).getLastD "" == p.name) = false := by
      by_cases h1 : (splitSlash path).length = 1
      · obtain ⟨x, hx⟩ := List.length_eq_one.mp h1
        have hxp : x = path := splitSlash_eq_singleton path x hx
        rw [hx, hxp]
        simp [hpn]
      · simp [h1]
    rw [hcond]
    simp [hpn]

example : splitSlash "a/b" = ["a", "b"] := by decide
example : splitSlash "" = [""] := by decide
example : splitSlash "/" = ["", ""] := by decide
example : (Package.init "https://github.com/org/repo" none none).name = "repo" := by decide
example : (Package.init "https://x/org/repo" (some "registry") none).identity = "registry/repo" := by decide
example : (Package.init "https://x/org/repo" (some "registry") (some "sub")).identity = "registry/sub/repo" := by decide
example : (Package.init "https://x/org/repo" (some "registry") none).matches_path "repo" = some true := by decide
example : (Package.init "https://x/org/repo" (some "registry") none).matches_path "other/repo" = some false := by decide
example : (Package.init "https://x/org/repo" (some "registry") none).matches_path "a/registry/repo" = none := by decide
example : (Package.init "url/repo" none none).matches_path "repo" = some true := by decide
example : (Package.init "url/repo" none none).matches_path "url/repo" = some true := by decide
example : (Package.init "url/repo" none none).matches_path "org/repo" = some false := by decide

/-! ### Claim theorems -/

/-- Claim C1 (code bug evidence): the claim says that for a source-bearing
package, a path with strictly more slash-split segments than the canonical
identity yields `false` without a runtime fault.  The code instead raises
`IndexError` (modelled as `none`) whenever the overlapping trailing segments
all agree: here the path has 3 segments, the identity has 2, and the result
is the fault marker `none`, not `some false`. -/
theorem C1_longer_path_fault :
    (splitSlash "x/registry/repo").length = 3 ∧
    (splitSlash (Package.init "url/repo" (some "registry") none).identity).length = 2 ∧
    (Package.init "url/repo" (some "registry") none).matches_path "x/registry/repo"
      = none := by
  decide

/-- Claim C2: for every package whose `source` is present (truthy, i.e. the
branch `if self.source:` is taken), and every k from 1 to the number of
slash-split segments of the canonical identity, the path obtained by joining
the last k identity segments with a slash matches. -/
theorem C2_suffix_match (p : Package) (hs : truthy p.source = true) (k : Nat)
    (hk1 : 1 ≤ k) (hk2 : k ≤ (splitSlash p.identity).length) :
    p.matches_path
      (joinSlash ((splitSlash p.identity).drop ((splitSlash p.identity).length - k)))
      = some true := by
  have hne : (splitSlash p.identity).drop ((splitSlash p.identity).length - k) ≠ [] := by
    intro h
    have h2 := congrArg List.length h
    rw [List.length_drop] at h2
    simp only [List.length_nil] at h2
    omega
  have hfree : ∀ x ∈ (splitSlash p.identity).drop ((splitSlash p.identity).length - k),
      '/' ∉ x.data := fun x hx => mem_splitSlash p.identity x (List.mem_of_mem_drop hx)
  rw [matches_path_truthy p hs, splitSlash_joinSlash _ hne hfree]
  exact matchLoop_drop_reverse _ _

/-- Witness for C2 at a concrete package and k = 1: the single-segment
suffix "r" of identity "s/r" matches. -/
theorem C2_suffix_match_witness :
    (Package.init "u/r" (some "s") none).matches_path
      (joinSlash ((splitSlash (Package.init "u/r" (some "s") none).identity).drop
        ((splitSlash (Package.init "u/r" (some "s") none).identity).length - 1)))
      = some true :=
  C2_suffix_match (Package.init "u/r" (some "s") none) (by decide) 1 (by decide) (by decide)

/-- Claim C3: the canonical identity is `git_url` when `source` is absent,
`"{source}/{name}"` when `source` is present (non-empty) and `module_dir` is
absent, and `"{source}/{module_dir}/{name}"` when both are present
(non-empty); present-but-empty strings are covered by claim C10. -/
theorem C3_identity_cases (p : Package) :
    (p.source = none → p.identity = p.git_url) ∧
    (∀ s, p.source = some s → s ≠ "" → p.module_dir = none →
      p.identity = s ++ "/" ++ p.name) ∧
    (∀ s m, p.source = some s → s ≠ "" → p.module_dir = some m → m ≠ "" →
      p.identity = s ++ "/" ++ m ++ "/" ++ p.name) := by
  refine ⟨?_, ?_, ?_⟩
  · intro h
    apply identity_falsy
    rw [h]; rfl
  · intro s hsrc hs hm
    unfold Package.identity
    rw [hsrc, hm]
    simp [truthy, hs]
  · intro s m hsrc hs hmd hm
    unfold Package.identity
    rw [hsrc, hmd]
    simp [truthy, hs, hm]

/-- Witness for C3: a package with source "s" and module_dir "m" built from
git_url "g/h" has identity "s/m/h". -/
theorem C3_identity_cases_witness :
    (Package.init "g/h" (some "s") (some "m")).identity = "s/m/h" := by
  rw [(C3_identity_cases (Package.init "g/h" (some "s") (some "m"))).2.2 "s" "m"
    rfl (by decide) rfl (by decide)]
  decide

/-- Claim C4: when `source` is absent, a package matches exactly its bare
`name` (as a single segment) and its `git_url`, and no other path. -/
theorem C4_no_source_matching (g : String) (m : Option String) :
    ((Package.init g none m).matches_path (Package.init g none m).name = some true) ∧
    ((Package.init g none m).matches_path g = some true) ∧
    (∀ path, path ≠ (Package.init g none m).name → path ≠ g →
      (Package.init g none m).matches_path path = some false) := by
  have hs : truthy (Package.init g none m).source = false := rfl
  have hn := init_name_no_slash g none m
  refine ⟨?_, ?_, fun path hpn hpg => ?_⟩
  · rw [matches_path_falsy _ hs hn]
    simp
  · rw [matches_path_falsy _ hs hn]
    simp
    exact Or.inr rfl
  · rw [matches_path_falsy _ hs hn]
    simp [hpn, hpg]
    exact hpg

/-- Witness for C4 at a concrete non-matching path. -/
theorem C4_no_source_matching_witness :
    (Package.init "u/r" none none).matches_path "zzz" = some false :=
  (C4_no_source_matching "u/r" none).2.2 "zzz" (by decide) (by decide)

/-- Claim C5 as stated is false: the git_url "a/" is non-empty and splits
into two segments (so it "contains at least one segment" on any reading,
with "a" a non-empty one), yet the derived name is the empty string, because
the final slash-split segment of "a/" is empty. -/
theorem C5_counterexample :
    "a/" ≠ "" ∧ 1 ≤ (splitSlash "a/").length ∧ "a" ∈ splitSlash "a/" ∧
    ("a" : String) ≠ "" ∧ (Package.init "a/" none none).name = "" := by
  decide

/-- Claim C5 amended: the derived name always equals the final slash-split
segment of git_url, and it is non-empty provided git_url is non-empty and
does not end with a slash (so that its final segment is non-empty). -/
theorem C5_amended_name_nonempty (g : String) (s m : Option String)
    (hne : g ≠ "") (hlast : g.data.getLast? ≠ some '/') :
    (Package.init g s m).name ≠ "" ∧
    (Package.init g s m).name = (splitSlash g).getLastD "" := by
  refine ⟨?_, rfl⟩
  have hgne : g.data ≠ [] := fun h => hne (by rw [← mk_data g, h])
  obtain ⟨p, hp, hpne⟩ := splitChar_getLast '/' g.data hgne hlast
  rw [init_name]
  unfold splitSlash
  have hgl : (splitChar '/' g.data).getLastD [] = p := by
    rw [List.getLastD_eq_getLast?, hp]
    rfl
  rw [show ("" : String) = String.mk [] from rfl, List.getLastD_map, hgl]
  intro h
  injection h with h2
  exact hpne h2

/-- Witness for C5 (amended) at git_url "org/repo". -/
theorem C5_amended_witness :
    (Package.init "org/repo" none none).name ≠ "" ∧
    (Package.init "org/repo" none none).name = (splitSlash "org/repo").getLastD "" :=
  C5_amended_name_nonempty "org/repo" none none (by decide) (by decide)

/-- Claim C6: for a package constructed with a present (non-empty) source,
any path whose last slash-split segment differs from the package name fails
to match. -/
theorem C6_last_segment_mismatch (g s : String) (m : Option String) (path : String)
    (hs : s ≠ "")
    (hlast : (splitSlash path).getLastD "" ≠ (Package.init g (some s) m).name) :
    (Package.init g (some s) m).matches_path path = some false := by
  have hst : truthy (Package.init g (some s) m).source = true := by
    simp [Package.init, truthy, hs]
  rw [matches_path_truthy _ hst]
  obtain ⟨pre, hpre⟩ :=
    splitSlash_identity_concat _ hst (init_name_no_slash g (some s) m)
  rw [hpre, List.reverse_append, List.reverse_singleton, List.singleton_append]
  rcases List.eq_nil_or_concat (splitSlash path) with hnil | ⟨L, b, hLb⟩
  · exact absurd hnil (splitSlash_ne_nil path)
  · rw [List.concat_eq_append] at hLb
    rw [hLb, List.reverse_append, List.reverse_singleton, List.singleton_append]
    have hb : b ≠ (Package.init g (some s) m).name := by
      rw [hLb, List.getLastD_concat] at hlast
      exact hlast
    exact matchLoop_cons_ne _ _ _ _ hb

/-- Witness for C6: path "x" does not end in the name "r". -/
theorem C6_last_segment_mismatch_witness :
    (Package.init "u/r" (some "s") none).matches_path "x" = some false :=
  C6_last_segment_mismatch "u/r" "s" none "x" (by decide) (by decide)

/-- Claim C7: the derived name is git_url itself when git_url contains no
slash, and the substring after the last slash otherwise (expressed as: for
any decomposition git_url = a ++ "/" ++ b with b slash-free, name = b). -/
theorem C7_name_derivation (g : String) (s m : Option String) :
    ('/' ∉ g.data → (Package.init g s m).name = g) ∧
    (∀ a b : String, g = a ++ "/" ++ b → '/' ∉ b.data →
      (Package.init g s m).name = b) := by
  constructor
  · intro h
    rw [init_name, splitSlash_no_slash g h]
    rfl
  · intro a b hg hb
    rw [init_name, hg, splitSlash_append, splitSlash_no_slash b hb,
      List.getLastD_concat]

/-- Witness for C7: both branches at concrete git_urls. -/
theorem C7_name_derivation_witness :
    (Package.init "abc" none none).name = "abc" ∧
    (Package.init "u/r" none none).name = "r" :=
  ⟨(C7_name_derivation "abc" none none).1 (by decide),
   (C7_name_derivation "u/r" none none).2 "u" "r" (by decide) (by decide)⟩

/-- Claim C8: the ordering on packages is exactly code-point lexicographic
comparison of the canonical identities (the character-list order on the
identity strings). -/
theorem C8_lt_iff (a b : Package) :
    Package.lt a b = true ↔ a.identity.data < b.identity.data := by
  unfold Package.lt
  rw [decide_eq_true_iff]
  exact String.lt_iff_toList_lt

/-- Claim C9: when source is absent, two packages differing only in
module_dir have the same identity and the same matching behaviour on every
path. -/
theorem C9_module_dir_irrelevant (g : String) (m1 m2 : Option String) :
    (Package.init g none m1).identity = (Package.init g none m2).identity ∧
    ∀ path, (Package.init g none m1).matches_path path
      = (Package.init g none m2).matches_path path := by
  constructor
  · rfl
  · intro path
    rfl

/-- Claim C10: empty strings behave as absent values: source = "" gives
identity git_url and source-absent matching (equality with name or git_url),
and module_dir = "" with a non-empty source gives identity "{source}/{name}". -/
theorem C10_empty_string_optionals (g : String) (m : Option String) :
    ((Package.init g (some "") m).identity = g) ∧
    (∀ path, (Package.init g (some "") m).matches_path path
        = (Package.init g none m).matches_path path) ∧
    (∀ path, (Package.init g (some "") m).matches_path path
        = some (path == (Package.init g (some "") m).name || path == g)) ∧
    (∀ s, s ≠ "" → (Package.init g (some s) (some "")).identity
        = s ++ "/" ++ (Package.init g (some s) (some "")).name) := by
  have hs : truthy (Package.init g (some "") m).source = false := rfl
  refine ⟨identity_falsy _ hs, fun path => ?_, fun path => ?_, fun s hsne => ?_⟩
  · rfl
  · rw [matches_path_falsy _ hs (init_name_no_slash g (some "") m)]
    rfl
  · unfold Package.identity
    simp [Package.init, truthy, hsne]

/-- Witness for C10 at source "s" and empty module_dir. -/
theorem C10_empty_string_optionals_witness :
    (Package.init "u/r" (some "s") (some "")).identity
      = "s" ++ "/" ++ (Package.init "u/r" (some "s") (some "")).name :=
  (C10_empty_string_optionals "u/r" none).2.2.2 "s" (by decide)

end Bropkg
